import Mathlib

/-!
Shallow embedding of `flask_peewee/filters.py` (dynamic query-filter engine).

Conventions used throughout:
* Python strings are Lean `String`s; Python tuples of strings are `List String`.
* Python dicts that the source only ever reads back by key or iterates in
  insertion order are association lists (`List (key × value)`), kept in
  insertion order.
* peewee / wtforms behaviour that is outside `src/` (expression operators,
  `FormField` name flattening, the query object) is modelled from the spec and
  marked `Modelled from the spec:` in the corresponding doc comment.
* Fallible Python operations (`int(...)`, list indexing, `reduce` on an empty
  sequence) are modelled with `Option` / `Except PyErr`.
-/

/-- The query-filter operator kinds: one per `QueryFilter` subclass in the
source (`EqualQueryFilter`, `NotEqualQueryFilter`, ...). -/
inductive QFKind where
  | equal
  | notEqual
  | lessThan
  | lessThanEqualTo
  | greaterThan
  | greaterThanEqualTo
  | startsWith
  | contains
deriving DecidableEq, Repr

/-- `QueryFilter.operation()` of each subclass in the source. -/
def operationLabel : QFKind → String
  | .equal => "equal to"
  | .notEqual => "not equal to"
  | .lessThan => "less than"
  | .lessThanEqualTo => "less than or equal to"
  | .greaterThan => "greater than"
  | .greaterThanEqualTo => "greater than or equal to"
  | .startsWith => "starts with"
  | .contains => "contains"

/-- The peewee field classes named in `FilterMapping.get_field_types`, plus a
stand-in for any field class missing from that mapping (the source walks the
MRO and falls back to numeric). -/
inductive FieldClass where
  | charField
  | textField
  | dateTimeField
  | dateField
  | timeField
  | integerField
  | bigIntegerField
  | floatField
  | doubleField
  | decimalField
  | booleanField
  | primaryKeyField
  | foreignKeyField
  | unmappedField
deriving DecidableEq, Repr

/-- The four categories a field class maps to in `FilterMapping`. -/
inductive FieldCategory where
  | stringCat
  | numericCat
  | booleanCat
  | foreignKeyCat
deriving DecidableEq, Repr

/-- `FilterMapping.get_field_types` together with the MRO walk in
`FilterMapping.convert`: every concrete peewee class is mapped directly, and a
class not in the mapping falls back to numeric. -/
def fieldTypeCategory : FieldClass → FieldCategory
  | .charField => .stringCat
  | .textField => .stringCat
  | .dateTimeField => .numericCat
  | .dateField => .numericCat
  | .timeField => .numericCat
  | .integerField => .numericCat
  | .bigIntegerField => .numericCat
  | .floatField => .numericCat
  | .doubleField => .numericCat
  | .decimalField => .numericCat
  | .booleanField => .booleanCat
  | .primaryKeyField => .numericCat
  | .foreignKeyField => .foreignKeyCat
  | .unmappedField => .numericCat

/-- `FilterMapping.string`. -/
def filterMappingString : List QFKind :=
  [.equal, .notEqual, .startsWith, .contains]

/-- `FilterMapping.numeric`. -/
def filterMappingNumeric : List QFKind :=
  [.equal, .notEqual, .lessThan, .greaterThan, .lessThanEqualTo, .greaterThanEqualTo]

/-- `FilterMapping.foreign_key`. -/
def filterMappingForeignKey : List QFKind :=
  [.equal, .notEqual]

/-- `FilterMapping.boolean`. -/
def filterMappingBoolean : List QFKind :=
  [.equal, .notEqual]

/-- A field object as it appears in a field tree: owning model name, field
name, peewee class, and the field's declared choices (`field.choices`; `none`
unless the model declares some). -/
structure ModelField where
  modelName : String
  name : String
  fclass : FieldClass
  choices : Option (List (List String))
deriving DecidableEq, Repr

/-- A `QueryFilter` instance: its class determines `kind`; `options` is the
third constructor argument (`field.choices`, or the synthetic boolean choice
list built by `convert_boolean`). The `field` and verbose-name arguments are
recoverable from the `ModelField` the registry keys it under. -/
structure QFObj where
  kind : QFKind
  options : Option (List (List String))
deriving DecidableEq, Repr

/-- The literal `boolean_choices` value built by `FilterMapping.convert_boolean`:
a Python list holding one 4-tuple `('True', '1', 'False', '')`. -/
def booleanChoices : List (List String) :=
  [["True", "1", "False", ""]]

/-- `FilterMapping.convert`: dispatch on the field's category and build one
`QueryFilter` per applicable operator (`convert_string`, `convert_numeric`,
`convert_boolean`, `convert_foreign_key`). -/
def convertField (f : ModelField) : List QFObj :=
  match fieldTypeCategory f.fclass with
  | .stringCat => filterMappingString.map (fun k => ⟨k, f.choices⟩)
  | .numericCat => filterMappingNumeric.map (fun k => ⟨k, f.choices⟩)
  | .booleanCat => filterMappingBoolean.map (fun k => ⟨k, some booleanChoices⟩)
  | .foreignKeyCat => filterMappingForeignKey.map (fun k => ⟨k, f.choices⟩)

/-!
A peewee model schema: model name and declared fields in declaration order.
Relation fields (`ForeignKeyField`) carry their target model inline, so a
`PModel` value is a finite (acyclic) schema — the shape the source's recursive
`make_field_tree` is well defined on.
-/
mutual
inductive PModel where
  | mk : String → PFields → PModel
inductive PFields where
  | nil : PFields
  | cons : PFieldDef → PFields → PFields
inductive PFieldDef where
  | scalar : String → FieldClass → Option (List (List String)) → PFieldDef
  | fkey : String → PModel → PFieldDef
end

/-- Name of a declared field (`field.name`). -/
def pfieldName : PFieldDef → String
  | .scalar n _ _ => n
  | .fkey n _ => n

/-- `model.__name__`. -/
def pmodelName : PModel → String
  | .mk n _ => n

/-- `model._meta.fields` lookup (`fields[f]`). -/
def lookupPField : PFields → String → Option PFieldDef
  | .nil, _ => none
  | .cons d rest, f => if pfieldName d = f then some d else lookupPField rest f

/-- `model._meta.get_field_names()`: declared field names in order. -/
def pfieldNames : PFields → List String
  | .nil => []
  | .cons d rest => pfieldName d :: pfieldNames rest

theorem lookupPField_fkey_sizeOf : ∀ {fs : PFields} {f nm : String} {tgt : PModel},
    lookupPField fs f = some (.fkey nm tgt) → sizeOf tgt < sizeOf fs
  | .nil, f, nm, tgt, h => by simp [lookupPField] at h
  | .cons d rest, f, nm, tgt, h => by
    simp only [lookupPField] at h
    by_cases hd : pfieldName d = f
    · simp only [hd, if_true] at h
      cases h
      simp
      omega
    · simp only [hd, if_false] at h
      have := lookupPField_fkey_sizeOf h
      simp
      omega

/-- Python `s.startswith(pat)`. -/
def pyStartsWith (s pat : String) : Bool :=
  pat.data.isPrefixOf s.data

/-- Remove every non-overlapping occurrence of `pat` from the character list,
scanning left to right (Python `s.replace(pat, '')` for a nonempty `pat`). -/
def stripOcc (pat : List Char) : List Char → List Char
  | [] => []
  | c :: rest =>
    if pat ≠ [] ∧ pat.isPrefixOf (c :: rest) then stripOcc pat ((c :: rest).drop pat.length)
    else c :: stripOcc pat rest
termination_by l => l.length
decreasing_by
  · rename_i h
    simp only [List.length_drop, List.length_cons]
    have hp : 0 < pat.length := List.length_pos.mpr h.1
    omega
  · simp

/-- Python `s.replace(pat, '')`. -/
def pyReplaceEmpty (s pat : String) : String :=
  ⟨stripOcc pat.data s.data⟩

/-!
`FieldTreeNode`: model name, the subset of its fields selected for filtering,
and the relation-name → child mapping (in insertion order).
-/
mutual
inductive FTNode where
  | mk : String → List ModelField → FTChildren → FTNode
inductive FTChildren where
  | nil : FTChildren
  | cons : String → FTNode → FTChildren → FTChildren
end

/-- The `model_fields` accumulation of `make_field_tree`: one pass over the
requested names, skipping excluded names and names that are not declared
fields of the model. -/
def selectFields (mname : String) (mfields : PFields) (names exclude : List String) :
    List ModelField :=
  names.filterMap fun f =>
    if exclude.contains f then none
    else match lookupPField mfields f with
      | some (.scalar _ fc ch) => some ⟨mname, f, fc, ch⟩
      | some (.fkey _ _) => some ⟨mname, f, .foreignKeyField, none⟩
      | none => none

mutual
/-- `make_field_tree(model, fields, exclude)`: `fields = None` means all
declared field names; for every retained `ForeignKeyField` a child tree is
built from the `relation__`-scoped include/exclude subsets. -/
def makeFieldTree (m : PModel) (fieldsOpt : Option (List String)) (exclude : List String) :
    FTNode :=
  match m with
  | .mk mname mfields =>
    let names := fieldsOpt.getD (pfieldNames mfields)
    FTNode.mk mname (selectFields mname mfields names exclude)
      (makeChildren mfields names names exclude fieldsOpt.isNone)
termination_by (sizeOf m, 0)

/-- The child-building part of the `make_field_tree` loop: iterate the
requested names; for a name that is a declared `ForeignKeyField` (and not
excluded) recurse into its target model with the prefix-stripped include and
exclude lists (`rf.replace('name__', '')`). -/
def makeChildren (mfields : PFields) (allNames iter exclude : List String)
    (noExplicit : Bool) : FTChildren :=
  match iter with
  | [] => .nil
  | f :: rest =>
    if exclude.contains f then makeChildren mfields allNames rest exclude noExplicit
    else
      match h : lookupPField mfields f with
      | some (.fkey _ tgt) =>
        let pat := f ++ "__"
        let relFields := if noExplicit then none
          else some ((allNames.filter (fun rf => pyStartsWith rf pat)).map
            (fun rf => pyReplaceEmpty rf pat))
        let relExclude := (exclude.filter (fun rx => pyStartsWith rx pat)).map
          (fun rx => pyReplaceEmpty rx pat)
        FTChildren.cons f (makeFieldTree tgt relFields relExclude)
          (makeChildren mfields allNames rest exclude noExplicit)
      | some (.scalar _ _ _) => makeChildren mfields allNames rest exclude noExplicit
      | none => makeChildren mfields allNames rest exclude noExplicit
termination_by (sizeOf mfields, iter.length)
decreasing_by
  · apply Prod.Lex.right
    simp
  · apply Prod.Lex.left
    exact lookupPField_fkey_sizeOf h
  · apply Prod.Lex.right
    simp
  · apply Prod.Lex.right
    simp
  · apply Prod.Lex.right
    simp
end

mutual
def ftSize : FTNode → Nat
  | .mk _ _ ch => 1 + ftcSize ch
def ftcSize : FTChildren → Nat
  | .nil => 0
  | .cons _ c rest => ftSize c + ftcSize rest
end

/-- `node.model` of a field-tree node. -/
def ftModelName : FTNode → String
  | .mk n _ _ => n

/-- `node.children.values()`. -/
def ftChildNodes : FTChildren → List FTNode
  | .nil => []
  | .cons _ c rest => c :: ftChildNodes rest

theorem ftChildNodes_size_sum : ∀ ch : FTChildren,
    ((ftChildNodes ch).map ftSize).sum = ftcSize ch
  | .nil => by simp [ftChildNodes, ftcSize]
  | .cons _ c rest => by
    simp [ftChildNodes, ftcSize, ftChildNodes_size_sum rest]

/-- `FilterForm.load_query_filters`: breadth-first traversal of the field
tree, recording `filter_mapping.convert(field)` for every field encountered
(`queue.pop(0)` / `queue.extend(children)`). -/
def loadQF : List FTNode → List (ModelField × List QFObj)
  | [] => []
  | (FTNode.mk _ fs ch) :: rest =>
    fs.map (fun f => (f, convertField f)) ++ loadQF (rest ++ ftChildNodes ch)
termination_by q => (q.map ftSize).sum
decreasing_by
  simp only [List.map_append, List.sum_append, List.map_cons, List.sum_cons,
    ftChildNodes_size_sum, ftSize]
  omega

/-- `self._query_filters[field]`. -/
def lookupReg (reg : List (ModelField × List QFObj)) (f : ModelField) : Option (List QFObj) :=
  match reg with
  | [] => none
  | (f', qfs) :: rest => if f' = f then some qfs else lookupReg rest f

/-!
Form field descriptors (§4.6): `get_field_dict` builds, per node, an
operator-selector and a value-input descriptor for each field, and one nested
sub-form descriptor per child relation. The rendering payload that lives in
wtforms (widgets, validators, defaults) is outside this core; the descriptor
keeps what the engine itself computes: the selector's index-keyed choice list
and the identity of the field a value input binds to.
-/
mutual
inductive FormDescriptor where
  | opField : List (String × String) → FormDescriptor
  | valField : String → String → FormDescriptor
  | formField : FDict → FormDescriptor
inductive FDict where
  | nil : FDict
  | cons : String → FormDescriptor → FDict → FDict
end

def fdictAppend : FDict → FDict → FDict
  | .nil, d => d
  | .cons k v rest, d => .cons k v (fdictAppend rest d)

/-- `FilterForm.get_operation_field`: choices `(str(i), query_filter.operation())`. -/
def opChoices (reg : List (ModelField × List QFObj)) (f : ModelField) : List (String × String) :=
  ((lookupReg reg f).getD []).enum.map (fun p => (toString p.1, operationLabel p.2.kind))

/-- The per-field part of `get_field_dict`: `fo_<name>` and `fv_<name>` entries
in field order. -/
def fieldEntriesFD (reg : List (ModelField × List QFObj)) : List ModelField → FDict
  | [] => .nil
  | f :: rest =>
    .cons ("fo_" ++ f.name) (.opField (opChoices reg f))
      (.cons ("fv_" ++ f.name) (.valField f.modelName f.name) (fieldEntriesFD reg rest))

mutual
/-- `FilterForm.get_field_dict`: field entries then one `fr_<relation>` sub-form
per child. -/
def getFieldDict (reg : List (ModelField × List QFObj)) : FTNode → FDict
  | .mk _ fs ch => fdictAppend (fieldEntriesFD reg fs) (childEntriesFD reg ch)
def childEntriesFD (reg : List (ModelField × List QFObj)) : FTChildren → FDict
  | .nil => .nil
  | .cons p c rest =>
    .cons ("fr_" ++ p) (.formField (getFieldDict reg c)) (childEntriesFD reg rest)
end

/-- Modelled from the spec: flattening a nested field dict into wire parameter
names. The nesting itself is wtforms `FormField` (not in `src/`); §4.4/§4.6
fix the convention — a sub-form's field names are the sub-form's key, the
separator `-` (`FilterForm.separator`), then the inner name, recursively. -/
def flattenFDict : FDict → List String
  | .nil => []
  | .cons k d rest =>
    (match d with
     | .formField sub => (flattenFDict sub).map (fun n => k ++ "-" ++ n)
     | _ => [k]) ++ flattenFDict rest

/-- The Python exceptions `process_request` can raise: `int(...)` on a
non-integer string (`ValueError`), list indexing out of range (`IndexError`),
and `reduce` over an empty sequence (`TypeError`). -/
inductive PyErr where
  | valueError : String → PyErr
  | indexError : PyErr
  | typeError : PyErr
deriving DecidableEq, Repr

/-- Numeric value of a nonempty digit string. -/
def digitsVal (cs : List Char) : Int :=
  cs.foldl (fun a c => a * 10 + ((c.toNat : Int) - ('0'.toNat : Int))) 0

/-- Python `int(s)` (base 10): optional surrounding whitespace, optional sign,
then one or more digits; anything else raises `ValueError`. -/
def pyParseInt (s : String) : Option Int :=
  let cs := (s.data.dropWhile Char.isWhitespace).reverse.dropWhile Char.isWhitespace |>.reverse
  match cs with
  | '-' :: rest =>
    if rest ≠ [] ∧ rest.all Char.isDigit then some (-(digitsVal rest)) else none
  | '+' :: rest =>
    if rest ≠ [] ∧ rest.all Char.isDigit then some (digitsVal rest) else none
  | _ => if cs ≠ [] ∧ cs.all Char.isDigit then some (digitsVal cs) else none

/-- Python list indexing `l[i]`: nonnegative indices from the front, negative
indices from the back, `IndexError` (here `none`) outside `[-len, len-1]`. -/
def pyIndex {α : Type} (l : List α) (i : Int) : Option α :=
  if 0 ≤ i then l.get? i.toNat
  else if (-i).toNat ≤ l.length then l.get? (l.length - (-i).toNat)
  else none

/-- `request.args`: a multidict, one entry per parameter name holding the list
of submitted values for that name. -/
def Request : Type := List (String × List String)

/-- Key lookup in `request.args`. -/
def lookupReq : Request → String → Option (List String)
  | [], _ => none
  | (k, vs) :: rest, n => if k = n then some vs else lookupReq rest n

/-- `name in request.args`. -/
def reqHas (r : Request) (n : String) : Bool :=
  (lookupReq r n).isSome

/-- `request.args.getlist(name)`. -/
def reqGetlist (r : Request) (n : String) : List String :=
  (lookupReq r n).getD []

/-- Modelled from the spec: a predicate expression as produced by the peewee
field operators (`==`, `!=`, `<`, `>`, `<=`, `>=`, `^`, `**`) and combined
with `operator.or_`. A comparison records the owning model, field name,
operator kind and raw value. -/
inductive QPred where
  | cmp : String → String → QFKind → String → QPred
  | orp : QPred → QPred → QPred
deriving DecidableEq, Repr

/-- `QueryFilter.query(value)` for the filter of kind `k` bound to field `f`. -/
def qfQuery (f : ModelField) (k : QFKind) (value : String) : QPred :=
  .cmp f.modelName f.name k value

/-- Modelled from the spec: the storage-engine query object. `switch` sets the
join context back to a model, `join` adds one join clause (from the current
context to the named model via the named relation) and moves the context
there, `where` appends one conjunct. -/
structure PQuery where
  ctx : String
  joins : List (String × String × String)
  wheres : List QPred
deriving DecidableEq, Repr

def PQuery.switch (q : PQuery) (m : String) : PQuery :=
  { q with ctx := m }

def PQuery.join (q : PQuery) (toModel onRel : String) : PQuery :=
  ⟨toModel, q.joins ++ [(q.ctx, toModel, onRel)], q.wheres⟩

def PQuery.whereQ (q : PQuery) (p : QPred) : PQuery :=
  { q with wheres := q.wheres ++ [p] }

/-- One entry of the `parse_query_filters` accumulator: the selector and value
lists from the request, the model path, the join-column path, and the two
parameter names. -/
structure AccEntry where
  sel : List String
  val : List String
  models : List String
  joins : List String
  qfS : String
  qfV : String
deriving DecidableEq, Repr

/-- The accumulator `accum`: a dict field → list of entries, in insertion
order (`accum.setdefault(field, []); accum[field].append(...)`). -/
def Accum : Type := List (ModelField × List AccEntry)

/-- `accum.setdefault(field, []); accum[field].append(entry)`. -/
def accumAdd (acc : Accum) (f : ModelField) (e : AccEntry) : Accum :=
  match acc with
  | [] => [(f, [e])]
  | (f', es) :: rest =>
    if f' = f then (f', es ++ [e]) :: rest else (f', es) :: accumAdd rest f e

/-- The per-node field loop of `parse_query_filters._dfs`: a field contributes
an entry only when both `prefix + 'fo_' + name` and `prefix + 'fv_' + name`
are present in the request. -/
def dfsFields (req : Request) (fs : List ModelField) (pfx : String)
    (models joins : List String) (acc : Accum) : Accum :=
  match fs with
  | [] => acc
  | f :: rest =>
    let qfS := pfx ++ "fo_" ++ f.name
    let qfV := pfx ++ "fv_" ++ f.name
    let acc' :=
      if reqHas req qfS && reqHas req qfV then
        accumAdd acc f ⟨reqGetlist req qfS, reqGetlist req qfV, models, joins, qfS, qfV⟩
      else acc
    dfsFields req rest pfx models joins acc'

mutual
/-- `parse_query_filters._dfs`: handle this node's fields, then recurse into
each child with prefix `prefix + 'fr_' + name + '-'`, model path extended by
the child's model and join path extended by the relation name. -/
def dfsNode (req : Request) : FTNode → String → List String → List String → Accum → Accum
  | .mk _ fs ch, pfx, models, joins, acc =>
    dfsChildren req ch pfx models joins (dfsFields req fs pfx models joins acc)
def dfsChildren (req : Request) : FTChildren → String → List String → List String → Accum → Accum
  | .nil, _, _, _, acc => acc
  | .cons p c rest, pfx, models, joins, acc =>
    dfsChildren req rest pfx models joins
      (dfsNode req c (pfx ++ "fr_" ++ p ++ "-") (models ++ [ftModelName c]) (joins ++ [p]) acc)
end

/-- `FilterForm`: the model, its field tree, and the pre-computed
query-filter registry (`__init__` with `make_field_tree` and
`load_query_filters`; the queue starts as `[self._field_tree]`). -/
structure FilterFormS where
  modelName : String
  tree : FTNode
  registry : List (ModelField × List QFObj)

def mkFilterForm (m : PModel) (fieldsOpt : Option (List String)) (exclude : List String) :
    FilterFormS :=
  let t := makeFieldTree m fieldsOpt exclude
  ⟨pmodelName m, t, loadQF [t]⟩

/-- `FilterForm.parse_query_filters`: run the depth-first search from the
field tree's root with empty prefix and paths. -/
def parseQueryFilters (ff : FilterFormS) (req : Request) : Accum :=
  dfsNode req ff.tree "" [] [] []

/-- One `(qf_s, idx, qf_v, filter_value)` entry of the `cleaned` log. -/
def Cleaned : Type := String × Int × String × String

/-- The inner loop of `process_request` over one field's zipped
`(filter_idx, filter_value)` pairs: `idx = int(filter_idx)` (`ValueError` on
failure), log the cleaned tuple, then `self._query_filters[field][idx]`
(`IndexError` out of range) and `query_filter.query(filter_value)`. -/
def buildQObjects (qfs : List QFObj) (f : ModelField) (qfS qfV : String) :
    List (String × String) → Except PyErr (List Cleaned × List QPred)
  | [] => .ok ([], [])
  | (s, v) :: rest =>
    match pyParseInt s with
    | none => .error (.valueError s)
    | some idx =>
      match pyIndex qfs idx with
      | none => .error .indexError
      | some qf =>
        match buildQObjects qfs f qfS qfV rest with
        | .error e => .error e
        | .ok (cs, ps) => .ok ((qfS, idx, qfV, v) :: cs, qfQuery f qf.kind v :: ps)

/-- `reduce(operator.or_, q_objects)`: left fold with OR; `TypeError` on an
empty sequence. -/
def reduceOr : List QPred → Except PyErr QPred
  | [] => .error .typeError
  | p :: ps => .ok (ps.foldl QPred.orp p)

/-- The per-entry body of the `process_request` loop: switch back to the root
model, apply one join per hop of `zip(join_path, path)`, build the q-objects
from `zip(filter_idx_list, filter_value_list)`, and AND the OR-combined group
onto the query. -/
def applyEntry (ff : FilterFormS) (f : ModelField) (e : AccEntry) (q : PQuery)
    (cleaned : List Cleaned) : Except PyErr (PQuery × List Cleaned) :=
  let q1 := (q.switch ff.modelName)
  let q2 := (e.joins.zip e.models).foldl (fun acc jm => acc.join jm.2 jm.1) q1
  match buildQObjects ((lookupReg ff.registry f).getD []) f e.qfS e.qfV (e.sel.zip e.val) with
  | .error er => .error er
  | .ok (cs, ps) =>
    match reduceOr ps with
    | .error er => .error er
    | .ok p => .ok (q2.whereQ p, cleaned ++ cs)

def applyEntries (ff : FilterFormS) (f : ModelField) :
    List AccEntry → PQuery → List Cleaned → Except PyErr (PQuery × List Cleaned)
  | [], q, cleaned => .ok (q, cleaned)
  | e :: rest, q, cleaned =>
    match applyEntry ff f e q cleaned with
    | .error er => .error er
    | .ok (q', cleaned') => applyEntries ff f rest q' cleaned'

def applyAccum (ff : FilterFormS) :
    Accum → PQuery → List Cleaned → Except PyErr (PQuery × List Cleaned)
  | [], q, cleaned => .ok (q, cleaned)
  | (f, es) :: rest, q, cleaned =>
    match applyEntries ff f es q cleaned with
    | .error er => .error er
    | .ok (q', cleaned') => applyAccum ff rest q' cleaned'

/-- `FilterForm.process_request(query)`: build the form field dict, parse the
request's filters, then fold joins and OR-grouped predicates onto the query,
returning `(form, query, cleaned)` — the form is represented by its field
dict. -/
def processRequest (ff : FilterFormS) (q : PQuery) (req : Request) :
    Except PyErr (FDict × PQuery × List Cleaned) :=
  let fieldDict := getFieldDict ff.registry ff.tree
  let accum := parseQueryFilters ff req
  match applyAccum ff accum q [] with
  | .error er => .error er
  | .ok (q', cleaned) => .ok (fieldDict, q', cleaned)

/-!
Concrete fixtures: the spec's running scenario — a model `Post` with a scalar
`title` and a relation `author -> User`, where `User` has a scalar `name`.
-/

def userM : PModel := .mk "User" (.cons (.scalar "name" .charField none) .nil)

def postM : PModel :=
  .mk "Post" (.cons (.scalar "title" .charField none) (.cons (.fkey "author" userM) .nil))

def userNode : FTNode := .mk "User" [⟨"User", "name", .charField, none⟩] .nil

def tPost : FTNode :=
  .mk "Post" [⟨"Post", "title", .charField, none⟩, ⟨"Post", "author", .foreignKeyField, none⟩]
    (.cons "author" userNode .nil)

/-- The query filters built for a string-typed field with no choices. -/
def strQFs : List QFObj :=
  [⟨.equal, none⟩, ⟨.notEqual, none⟩, ⟨.startsWith, none⟩, ⟨.contains, none⟩]

/-- The query filters built for a foreign-key field with no choices. -/
def fkQFs : List QFObj := [⟨.equal, none⟩, ⟨.notEqual, none⟩]

def regPost : List (ModelField × List QFObj) :=
  [(⟨"Post", "title", .charField, none⟩, strQFs),
   (⟨"Post", "author", .foreignKeyField, none⟩, fkQFs),
   (⟨"User", "name", .charField, none⟩, strQFs)]

theorem ffPost_eq : mkFilterForm postM none [] = ⟨"Post", tPost, regPost⟩ := by
  simp [mkFilterForm, makeFieldTree, makeChildren, selectFields, postM, userM, pmodelName,
    lookupPField, pfieldName, pfieldNames, loadQF, ftChildNodes, convertField, fieldTypeCategory,
    filterMappingString, filterMappingForeignKey, tPost, userNode, regPost, strQFs, fkQFs]

/-- A fresh query rooted at `Post`. -/
def pq0 : PQuery := ⟨"Post", [], []⟩

/-- C3 (counterexample): with the parameter names the claim prescribes
(`fo_author-fr_name` / `fv_author-fr_name`), the parser matches nothing — the
request parser's names put the `fr_author-` relation segment first
(`prefix + 'fo_' + name`), so processing returns the query unchanged: no join
and no predicate, contradicting the claimed join of length 1. -/
theorem c3_counterexample :
    processRequest (mkFilterForm postM none []) pq0
        [("fo_author-fr_name", ["0"]), ("fv_author-fr_name", ["Alice"])] =
      .ok (getFieldDict regPost tPost, pq0, []) ∧ pq0.joins = [] ∧ pq0.wheres = [] := by
  rw [ffPost_eq]
  exact ⟨rfl, rfl, rfl⟩

/-- C3 (amended): with the wire names the code actually generates —
`fr_author-fo_name=0` and `fr_author-fv_name=Alice` — the request resolves to
exactly one join, from Post to User on the `author` relation, and the
predicate `User.name == "Alice"`. -/
theorem c3_amended :
    processRequest (mkFilterForm postM none []) pq0
        [("fr_author-fo_name", ["0"]), ("fr_author-fv_name", ["Alice"])] =
      .ok (getFieldDict regPost tPost,
        ⟨"User", [("Post", "User", "author")], [.cmp "User" "name" .equal "Alice"]⟩,
        [("fr_author-fo_name", 0, "fr_author-fv_name", "Alice")]) := by
  rw [ffPost_eq]
  rfl

/-- C2: predicates of one field (its positionally zipped selector/value
pairs) are OR-combined into a single where-group, groups of different fields
are ANDed by successive `where` application, and a field with two OR'd
matches over one relation hop contributes exactly one join — not one per
match. -/
theorem c2_query_assembly (vt vA vB : String) :
    processRequest (mkFilterForm postM none []) pq0
        [("fo_title", ["0"]), ("fv_title", [vt]),
         ("fr_author-fo_name", ["0", "0"]), ("fr_author-fv_name", [vA, vB])] =
      .ok (getFieldDict regPost tPost,
        ⟨"User", [("Post", "User", "author")],
         [.cmp "Post" "title" .equal vt,
          .orp (.cmp "User" "name" .equal vA) (.cmp "User" "name" .equal vB)]⟩,
        [("fo_title", 0, "fv_title", vt),
         ("fr_author-fo_name", 0, "fr_author-fv_name", vA),
         ("fr_author-fo_name", 0, "fr_author-fv_name", vB)]) := by
  rw [ffPost_eq]
  rfl

/-- The `fields` component of a field-tree node. -/
def ftFields : FTNode → List ModelField
  | .mk _ fs _ => fs

mutual
/-- Whether a field with the given name appears anywhere in a field tree. -/
def ftreeHasFieldName : FTNode → String → Bool
  | .mk _ fs ch, n => fs.any (fun f => f.name == n) || ftchHasFieldName ch n
def ftchHasFieldName : FTChildren → String → Bool
  | .nil, _ => false
  | .cons _ c rest, n => ftreeHasFieldName c n || ftchHasFieldName rest n
end

/-- C5 (counterexample): with `includeFields = {"title", "author__name"}` the
built tree holds `title` at the root but has NO child node at all — the
`author__name` entry alone does not create the `author` child, because a
child is only built for a relation whose bare name is itself included. -/
theorem c5_counterexample :
    makeFieldTree postM (some ["title", "author__name"]) [] =
      FTNode.mk "Post" [⟨"Post", "title", .charField, none⟩] .nil := by
  simp [makeFieldTree, makeChildren, selectFields, postM, userM, lookupPField, pfieldName,
    pyStartsWith, pyReplaceEmpty, stripOcc]

/-- C5 (amended): a bare name includes a field at its level, and
`relationName__rest` entries are stripped of the prefix and passed into the
child build for `relationName` — but the child is built only when
`relationName` itself also appears bare in `includeFields`. With
`{"title", "author", "author__name"}` the root holds `title` and the
`author` relation field, and the `author` child node holds only `name`. -/
theorem c5_amended :
    makeFieldTree postM (some ["title", "author", "author__name"]) [] =
      FTNode.mk "Post"
        [⟨"Post", "title", .charField, none⟩, ⟨"Post", "author", .foreignKeyField, none⟩]
        (.cons "author" (FTNode.mk "User" [⟨"User", "name", .charField, none⟩] .nil) .nil) := by
  simp [makeFieldTree, makeChildren, selectFields, postM, userM, lookupPField, pfieldName,
    pyStartsWith, pyReplaceEmpty, stripOcc]

/-- A model with a scalar `name` and a relation `author -> User` whose target
also declares a field called `name`. -/
def postC4 : PModel :=
  .mk "Post" (.cons (.scalar "name" .charField none) (.cons (.fkey "author" userM) .nil))

/-- C4 (counterexample): the name `name` appears in both the include set
`{name, author, author__name}` and the exclude set `{name}`, yet a field
named `name` (namely `User.name`, reached through the scoped include
`author__name`) still appears in the built tree: exclusion is evaluated per
level, not globally. -/
theorem c4_counterexample :
    "name" ∈ ["name", "author", "author__name"] ∧ "name" ∈ ["name"] ∧
    ftreeHasFieldName
      (makeFieldTree postC4 (some ["name", "author", "author__name"]) ["name"]) "name" = true := by
  refine ⟨by decide, by decide, ?_⟩
  have h : makeFieldTree postC4 (some ["name", "author", "author__name"]) ["name"] =
      FTNode.mk "Post" [⟨"Post", "author", .foreignKeyField, none⟩]
        (.cons "author" (FTNode.mk "User" [⟨"User", "name", .charField, none⟩] .nil) .nil) := by
    simp [makeFieldTree, makeChildren, selectFields, postC4, userM, lookupPField, pfieldName,
      pyStartsWith, pyReplaceEmpty, stripOcc]
  rw [h]
  rfl

theorem selectFields_not_excluded {mn : String} {mf : PFields} {names ex : List String}
    {f : ModelField} (h : f ∈ selectFields mn mf names ex) : f.name ∉ ex := by
  obtain ⟨a, ha, hFa⟩ := List.mem_filterMap.mp h
  simp at hFa
  obtain ⟨hnotex, hmatch⟩ := hFa
  rcases hl : lookupPField mf a with _ | (⟨nm, fc, ch⟩ | ⟨nm, tgt⟩)
  · rw [hl] at hmatch
    simp at hmatch
  · rw [hl] at hmatch
    simp at hmatch
    rw [← hmatch]
    exact hnotex
  · rw [hl] at hmatch
    simp at hmatch
    rw [← hmatch]
    exact hnotex

/-- C4 (amended): exclusion wins at the level where it applies — for every
model and every (includeFields, excludeFields) pair, a name in the exclude
list never appears among the fields selected at that level (the root node of
the built tree); a same-named field can still appear at deeper levels when it
is pulled in by a `relation__`-scoped include entry that is not excluded with
the matching scope. -/
theorem c4_amended (m : PModel) (fieldsOpt : Option (List String)) (exclude : List String)
    (n : String) (hn : n ∈ exclude) :
    (ftFields (makeFieldTree m fieldsOpt exclude)).all (fun f => !(f.name == n)) = true := by
  rcases m with ⟨mname, mfields⟩
  rw [makeFieldTree]
  simp only [ftFields, List.all_eq_true]
  intro f hf
  have := selectFields_not_excluded hf
  simp only [Bool.not_eq_eq_eq_not, Bool.not_true, beq_eq_false_iff_ne, ne_eq]
  intro he
  rw [he] at this
  exact this hn

/-- Witness for `c4_amended` at the concrete cyclic-name scenario. -/
theorem c4_amended_witness :
    (ftFields (makeFieldTree postC4 (some ["name", "author", "author__name"]) ["name"])).all
      (fun f => !(f.name == "name")) = true :=
  c4_amended postC4 (some ["name", "author", "author__name"]) ["name"] "name" (by decide)

/-!
A one-field model `M` with a single scalar field `f` of a parametric class:
the setting for the selector-validation claims.
-/

def singleField (fc : FieldClass) : ModelField := ⟨"M", "f", fc, none⟩

def singleM (fc : FieldClass) : PModel := .mk "M" (.cons (.scalar "f" fc none) .nil)

def treeSingle (fc : FieldClass) : FTNode := .mk "M" [singleField fc] .nil

def regSingle (fc : FieldClass) : List (ModelField × List QFObj) :=
  [(singleField fc, convertField (singleField fc))]

/-- Length of the operator list of `M.f`. -/
def opsLen (fc : FieldClass) : Nat := (convertField (singleField fc)).length

def qM0 : PQuery := ⟨"M", [], []⟩

theorem ffSingle_eq (fc : FieldClass) :
    mkFilterForm (singleM fc) none [] = ⟨"M", treeSingle fc, regSingle fc⟩ := by
  simp [mkFilterForm, makeFieldTree, makeChildren, selectFields, singleM, pmodelName,
    lookupPField, pfieldName, pfieldNames, loadQF, ftChildNodes, treeSingle, regSingle,
    singleField]

theorem processRequest_single (fc : FieldClass) (sl vl : List String) :
    processRequest ⟨"M", treeSingle fc, regSingle fc⟩ qM0 [("fo_f", sl), ("fv_f", vl)] =
      match buildQObjects (convertField (singleField fc)) (singleField fc) "fo_f" "fv_f"
          (sl.zip vl) with
      | .error e => .error e
      | .ok (cs, ps) =>
        match reduceOr ps with
        | .error e => .error e
        | .ok p => .ok (getFieldDict (regSingle fc) (treeSingle fc),
            PQuery.whereQ ⟨"M", [], []⟩ p, cs) := by
  have hreg : lookupReg (regSingle fc) (singleField fc) = some (convertField (singleField fc)) := by
    simp [lookupReg, regSingle]
  show ((match applyAccum ⟨"M", treeSingle fc, regSingle fc⟩
      [(singleField fc, [⟨sl, vl, [], [], "fo_f", "fv_f"⟩])] qM0 [] with
    | Except.error e => Except.error e
    | Except.ok (q', cleaned) =>
      Except.ok (getFieldDict (regSingle fc) (treeSingle fc), q', cleaned)) :
    Except PyErr (FDict × PQuery × List Cleaned)) = _
  simp only [applyAccum, applyEntries, applyEntry, hreg, Option.getD, List.zip_nil_right,
    List.foldl_nil, PQuery.switch]
  rcases hb : buildQObjects (convertField (singleField fc)) (singleField fc) "fo_f" "fv_f"
      (sl.zip vl) with er | ⟨cs, ps⟩
  · simp
  · rcases hr : reduceOr ps with er | p
    · simp [hr, qM0]
    · simp [hr, qM0]

theorem pyIndex_out_of_range {α : Type} (l : List α) (i : Int)
    (h : (l.length : Int) ≤ i ∨ i < -(l.length : Int)) : pyIndex l i = none := by
  unfold pyIndex
  rcases h with h | h
  · rw [if_pos (by omega)]
    exact List.get?_eq_none.mpr (by omega)
  · rw [if_neg (by omega), if_neg (by omega)]

theorem pyIndex_neg {α : Type} (l : List α) (i : Int)
    (h1 : -(l.length : Int) ≤ i) (h2 : i ≤ -1) :
    pyIndex l i = l.get? ((l.length : Int) + i).toNat := by
  unfold pyIndex
  rw [if_neg (by omega), if_pos (by omega)]
  congr 1
  omega

/-- C7 (counterexample): the selector `-1` parses to an integer outside the
range `[0, 3]` of valid positions for a string field's four operators, yet
request processing does NOT fail: Python's negative list indexing silently
selects the last operator (`contains`) and builds a query from it. -/
theorem c7_counterexample :
    processRequest (mkFilterForm (singleM .charField) none []) qM0
        [("fo_f", ["-1"]), ("fv_f", ["x"])] =
      .ok (getFieldDict (regSingle .charField) (treeSingle .charField),
        ⟨"M", [], [.cmp "M" "f" .contains "x"]⟩, [("fo_f", -1, "fv_f", "x")]) := by
  rw [ffSingle_eq]
  rfl

/-- C7 (amended): a zipped selector entry that does not parse as a Python
int fails with `ValueError`, and one that parses to an integer outside the
Python index range `[-n, n-1]` (n = operator-list length) fails with
`IndexError`; integers in `[-n, -1]`, however, silently select from the end
of the list, and unpaired entries are dropped by zip truncation. -/
theorem c7_amended (fc : FieldClass) (s v : String)
    (h : pyParseInt s = none ∨
      ∃ i : Int, pyParseInt s = some i ∧ ((opsLen fc : Int) ≤ i ∨ i < -(opsLen fc : Int))) :
    ∃ e, processRequest (mkFilterForm (singleM fc) none []) qM0
      [("fo_f", [s]), ("fv_f", [v])] = .error e := by
  rw [ffSingle_eq, processRequest_single]
  rcases h with hp | ⟨i, hp, hout⟩
  · refine ⟨.valueError s, ?_⟩
    simp [buildQObjects, hp]
  · refine ⟨.indexError, ?_⟩
    have hidx : pyIndex (convertField (singleField fc)) i = none :=
      pyIndex_out_of_range _ _ hout
    simp [buildQObjects, hp, hidx]

/-- Witness for `c7_amended`: selector `"99"` against the four string
operators fails. -/
theorem c7_amended_witness :
    ∃ e, processRequest (mkFilterForm (singleM .charField) none []) qM0
      [("fo_f", ["99"]), ("fv_f", ["x"])] = .error e :=
  c7_amended .charField "99" "x" (Or.inr ⟨99, by decide, Or.inl (by decide)⟩)

/-- C8 (counterexample): selector list `["0", "1"]` against value list
`["A"]` — mismatched lengths — raises no error at all (there is no
`MalformedFilterParameters` in the code): `zip` silently drops the unpaired
selector `"1"` and processing succeeds with the single pair. -/
theorem c8_counterexample :
    processRequest (mkFilterForm (singleM .charField) none []) qM0
        [("fo_f", ["0", "1"]), ("fv_f", ["A"])] =
      .ok (getFieldDict (regSingle .charField) (treeSingle .charField),
        ⟨"M", [], [.cmp "M" "f" .equal "A"]⟩, [("fo_f", 0, "fv_f", "A")]) := by
  rw [ffSingle_eq]
  rfl

/-- C8 (amended): mismatched selector/value list lengths never produce a
mismatch error; the lists are zipped positionally, so processing them is
exactly equivalent to processing the lists truncated to the common length —
extra entries are silently dropped. -/
theorem c8_amended (fc : FieldClass) (sl vl : List String) :
    processRequest (mkFilterForm (singleM fc) none []) qM0 [("fo_f", sl), ("fv_f", vl)] =
      processRequest (mkFilterForm (singleM fc) none []) qM0
        [("fo_f", sl.take (min sl.length vl.length)),
         ("fv_f", vl.take (min sl.length vl.length))] := by
  rw [ffSingle_eq, processRequest_single, processRequest_single, ← List.zip_eq_zip_take_min]

/-- C10: a selector parsing to a negative integer `i` with `-n ≤ i ≤ -1`
(n = operator-list length) raises no error and silently applies the operator
at position `n + i`, producing a query as if that operator had been
selected. -/
theorem c10_negative_index (fc : FieldClass) (s v : String) (i : Int)
    (hp : pyParseInt s = some i) (h1 : -(opsLen fc : Int) ≤ i) (h2 : i ≤ -1) :
    ∃ qf, (convertField (singleField fc)).get? ((opsLen fc : Int) + i).toNat = some qf ∧
      processRequest (mkFilterForm (singleM fc) none []) qM0
          [("fo_f", [s]), ("fv_f", [v])] =
        .ok (getFieldDict (regSingle fc) (treeSingle fc),
          ⟨"M", [], [.cmp "M" "f" qf.kind v]⟩, [("fo_f", i, "fv_f", v)]) := by
  have hidx := pyIndex_neg (convertField (singleField fc)) i (by exact h1) h2
  have hlen : ((convertField (singleField fc)).length : Int) = (opsLen fc : Int) := rfl
  rw [hlen] at hidx
  rcases hq : (convertField (singleField fc)).get? ((opsLen fc : Int) + i).toNat with _ | qf
  · exfalso
    have := List.get?_eq_none.mp hq
    unfold opsLen at this h1
    omega
  · refine ⟨qf, rfl, ?_⟩
    rw [ffSingle_eq, processRequest_single]
    rw [hq] at hidx
    simp only [buildQObjects, hp, hidx, reduceOr, List.foldl_nil]
    simp [PQuery.whereQ, qfQuery, singleField]

/-- Witness for `c10_negative_index`: selector `"-1"` on a string field
selects the last operator (`contains`). -/
theorem c10_negative_index_witness :
    ∃ qf, (convertField (singleField .charField)).get?
        ((opsLen .charField : Int) + (-1)).toNat = some qf ∧
      processRequest (mkFilterForm (singleM .charField) none []) qM0
          [("fo_f", ["-1"]), ("fv_f", ["x"])] =
        .ok (getFieldDict (regSingle .charField) (treeSingle .charField),
          ⟨"M", [], [.cmp "M" "f" qf.kind "x"]⟩, [("fo_f", -1, "fv_f", "x")]) :=
  c10_negative_index .charField "-1" "x" (-1) (by decide) (by decide) (by decide)

/-- C9 (evaluation at the bug): for every boolean field, the operator list is
`[equal, not-equal]` as claimed, but the synthetic choice set attached to each
of its QueryFilters is a ONE-entry list holding the flat 4-tuple
`('True', '1', 'False', '')` — not the claimed two-valued set of
`('True', '1')` / `('False', '')` pairs. -/
theorem c9_boolean_choices (mn n : String) (ch : Option (List (List String))) :
    convertField ⟨mn, n, .booleanField, ch⟩ =
      [⟨.equal, some booleanChoices⟩, ⟨.notEqual, some booleanChoices⟩] ∧
    booleanChoices = [["True", "1", "False", ""]] :=
  ⟨rfl, rfl⟩

/-- Whether `pat` occurs as a contiguous subsequence of the character list. -/
def listHasSub (pat : List Char) : List Char → Bool
  | [] => pat.isEmpty
  | c :: rest => pat.isPrefixOf (c :: rest) || listHasSub pat rest

/-- Modelled from the spec: evaluation of a string-field predicate against a
record whose field holds `r`. §4.1: `starts-with` and `contains` compile to
pattern-match predicates (prefix-match and substring-match); all others are
direct comparisons. The peewee expression objects live outside `src/`. -/
def evalStrPred (k : QFKind) (v r : String) : Bool :=
  match k with
  | .equal => r == v
  | .notEqual => r != v
  | .lessThan => decide (r < v)
  | .lessThanEqualTo => decide (r ≤ v)
  | .greaterThan => decide (v < r)
  | .greaterThanEqualTo => decide (v ≤ r)
  | .startsWith => v.data.isPrefixOf r.data
  | .contains => listHasSub v.data r.data

theorem isPrefixOf_iff_append : ∀ (l₁ l₂ : List Char),
    l₁.isPrefixOf l₂ = true ↔ ∃ t, l₂ = l₁ ++ t
  | [], l₂ => by simp [List.isPrefixOf]
  | a :: as, [] => by simp [List.isPrefixOf]
  | a :: as, b :: bs => by
    simp only [List.isPrefixOf, Bool.and_eq_true, beq_iff_eq, List.cons_append]
    constructor
    · rintro ⟨rfl, h⟩
      obtain ⟨t, rfl⟩ := (isPrefixOf_iff_append as bs).mp h
      exact ⟨t, rfl⟩
    · rintro ⟨t, ht⟩
      injection ht with h1 h2
      subst h1
      subst h2
      exact ⟨rfl, (isPrefixOf_iff_append as _).mpr ⟨t, rfl⟩⟩

/-- The built `starts-with` predicate on value `"ab"` holds exactly on the
strings of the form `"ab" ++ t`. -/
theorem startsWithPred_iff (s : String) :
    evalStrPred .startsWith "ab" s = true ↔ ∃ t : String, s = "ab" ++ t := by
  simp only [evalStrPred]
  rw [isPrefixOf_iff_append]
  constructor
  · rintro ⟨t, ht⟩
    refine ⟨⟨t⟩, ?_⟩
    cases s
    exact congrArg String.mk ht
  · rintro ⟨t, rfl⟩
    exact ⟨t.data, rfl⟩

/-- C6: a string-like field's operator list is exactly
`[equal, not-equal, starts-with, contains]` in that order; index 2 is the
`starts-with` filter; and the predicate it builds on `"ab"` is satisfied by
exactly the records whose value begins with `"ab"` — in particular `"abc"`
satisfies it while `"xaby"`, which contains `"ab"` only mid-string, does
not. -/
theorem c6_string_operators (fc : FieldClass) (mn n : String)
    (ch : Option (List (List String))) (h : fieldTypeCategory fc = .stringCat) :
    (convertField ⟨mn, n, fc, ch⟩).map QFObj.kind =
        [.equal, .notEqual, .startsWith, .contains] ∧
    (convertField ⟨mn, n, fc, ch⟩).get? 2 = some ⟨QFKind.startsWith, ch⟩ ∧
    (∀ s : String, evalStrPred .startsWith "ab" s = true ↔ ∃ t : String, s = "ab" ++ t) ∧
    evalStrPred .startsWith "ab" "abc" = true ∧
    listHasSub "ab".data "xaby".data = true ∧
    evalStrPred .startsWith "ab" "xaby" = false := by
  refine ⟨?_, ?_, startsWithPred_iff, by decide, by decide, by decide⟩
  · simp [convertField, h, filterMappingString]
  · simp [convertField, h, filterMappingString]

/-- Witness for `c6_string_operators` at `CharField`. -/
theorem c6_string_operators_witness :
    (convertField ⟨"M", "f", .charField, none⟩).map QFObj.kind =
        [.equal, .notEqual, .startsWith, .contains] ∧
    (convertField ⟨"M", "f", .charField, none⟩).get? 2 = some ⟨QFKind.startsWith, none⟩ ∧
    (∀ s : String, evalStrPred .startsWith "ab" s = true ↔ ∃ t : String, s = "ab" ++ t) ∧
    evalStrPred .startsWith "ab" "abc" = true ∧
    listHasSub "ab".data "xaby".data = true ∧
    evalStrPred .startsWith "ab" "xaby" = false :=
  c6_string_operators .charField "M" "f" none rfl

/-!
Round-trip (C1). A request is encoded from the form descriptors: every
flattened wire name `n` carries the value list `g n` that the client submits
for it. Parsing that request back through the field tree must reproduce, per
field, exactly the encoded (field, selector, value) triples.
-/

/-- The request whose parameter names are exactly `names`, each carrying the
submitted value list `g n`. -/
def wireRequest (names : List String) (g : String → List String) : Request :=
  names.map (fun n => (n, g n))

/-- A `(field, operatorIndex-string, raw value)` triple. -/
def Triple : Type := ModelField × String × String

/-- Triples encoded for one field from its selector and value lists, zipped
positionally. -/
def pairTriples (f : ModelField) (sl vl : List String) : List Triple :=
  (sl.zip vl).map (fun p => (f, p.1, p.2))

/-- The triples an accumulator entry denotes. -/
def entryTriples (f : ModelField) (e : AccEntry) : List Triple :=
  (e.sel.zip e.val).map (fun p => (f, p.1, p.2))

/-- All triples held by a parse accumulator. -/
def accumTriples (acc : Accum) : List Triple :=
  acc.flatMap (fun fe => fe.2.flatMap (fun e => entryTriples fe.1 e))

/-- The triples encoded for the fields of one node under a given prefix. -/
def encFields (g : String → List String) (fs : List ModelField) (pfx : String) : List Triple :=
  fs.flatMap (fun f => pairTriples f (g (pfx ++ "fo_" ++ f.name)) (g (pfx ++ "fv_" ++ f.name)))

mutual
/-- All triples encoded for a tree under a given prefix. -/
def encNode (g : String → List String) : FTNode → String → List Triple
  | .mk _ fs ch, pfx => encFields g fs pfx ++ encChildren g ch pfx
def encChildren (g : String → List String) : FTChildren → String → List Triple
  | .nil, _ => []
  | .cons p c rest, pfx =>
    encNode g c (pfx ++ "fr_" ++ p ++ "-") ++ encChildren g rest pfx
end

mutual
/-- The wire names of a tree's descriptors, relative to the tree's root. -/
def allNamesN : FTNode → List String
  | .mk _ fs ch => fs.flatMap (fun f => ["fo_" ++ f.name, "fv_" ++ f.name]) ++ allNamesC ch
def allNamesC : FTChildren → List String
  | .nil => []
  | .cons p c rest => (allNamesN c).map (fun n => "fr_" ++ p ++ "-" ++ n) ++ allNamesC rest
end

theorem flattenFDict_append : ∀ a b : FDict,
    flattenFDict (fdictAppend a b) = flattenFDict a ++ flattenFDict b
  | .nil, b => rfl
  | .cons k d rest, b => by
    cases d <;>
      simp only [fdictAppend, flattenFDict, flattenFDict_append rest b, List.append_assoc]

theorem flattenFDict_fieldEntries (reg : List (ModelField × List QFObj)) :
    ∀ fs : List ModelField, flattenFDict (fieldEntriesFD reg fs) =
      fs.flatMap (fun f => ["fo_" ++ f.name, "fv_" ++ f.name])
  | [] => rfl
  | f :: rest => by
    simp only [fieldEntriesFD, flattenFDict, flattenFDict_fieldEntries reg rest,
      List.flatMap_cons]
    rfl

mutual
theorem flatten_getFieldDict (reg : List (ModelField × List QFObj)) :
    ∀ t : FTNode, flattenFDict (getFieldDict reg t) = allNamesN t
  | .mk mn fs ch => by
    simp only [getFieldDict, flattenFDict_append, flattenFDict_fieldEntries reg fs,
      flatten_childEntries reg ch, allNamesN]
theorem flatten_childEntries (reg : List (ModelField × List QFObj)) :
    ∀ ch : FTChildren, flattenFDict (childEntriesFD reg ch) = allNamesC ch
  | .nil => rfl
  | .cons p c rest => by
    simp only [childEntriesFD, flattenFDict, flatten_getFieldDict reg c,
      flatten_childEntries reg rest, allNamesC]
end

theorem lookupReq_wire (g : String → List String) :
    ∀ (names : List String) (n : String),
      lookupReq (wireRequest names g) n = if n ∈ names then some (g n) else none
  | [], n => rfl
  | m :: rest, n => by
    show (if m = n then some (g m) else lookupReq (wireRequest rest g) n) = _
    by_cases h : m = n
    · subst h
      simp
    · rw [if_neg h, lookupReq_wire g rest n]
      have hnm : ¬ n = m := fun hh => h hh.symm
      simp [hnm]

theorem accumTriples_accumAdd (f : ModelField) (e : AccEntry) :
    ∀ acc : Accum,
      (accumTriples (accumAdd acc f e)).Perm (accumTriples acc ++ entryTriples f e)
  | [] => by simp [accumAdd, accumTriples]
  | (f', es) :: rest => by
    show (accumTriples (if f' = f then (f', es ++ [e]) :: rest
        else (f', es) :: accumAdd rest f e)).Perm _
    by_cases h : f' = f
    · rw [if_pos h]
      subst h
      simp only [accumTriples, List.flatMap_cons, List.flatMap_append, List.flatMap_nil,
        List.append_nil, List.append_assoc]
      exact List.Perm.append_left _ List.perm_append_comm
    · rw [if_neg h]
      simp only [accumTriples, List.flatMap_cons, List.append_assoc]
      exact List.Perm.append_left _ (accumTriples_accumAdd f e rest)

theorem dfsFields_triples (g : String → List String) (W : List String)
    (models joins : List String) :
    ∀ (fs : List ModelField) (pfx : String) (acc : Accum),
      (∀ f ∈ fs, (pfx ++ "fo_" ++ f.name) ∈ W ∧ (pfx ++ "fv_" ++ f.name) ∈ W) →
      (accumTriples (dfsFields (wireRequest W g) fs pfx models joins acc)).Perm
        (accumTriples acc ++ encFields g fs pfx)
  | [], pfx, acc, _ => by simp [dfsFields, encFields]
  | f :: rest, pfx, acc, hmem => by
    have hf := hmem f (by simp)
    have hrest : ∀ f' ∈ rest, (pfx ++ "fo_" ++ f'.name) ∈ W ∧ (pfx ++ "fv_" ++ f'.name) ∈ W :=
      fun f' hf' => hmem f' (by simp [hf'])
    simp only [dfsFields, reqHas, lookupReq_wire, reqGetlist, hf.1, hf.2, if_pos,
      Option.isSome_some, Bool.and_self, Option.getD_some, if_true]
    refine (dfsFields_triples g W models joins rest pfx _ hrest).trans ?_
    refine (List.Perm.append_right _ (accumTriples_accumAdd f _ _)).trans ?_
    simp only [encFields, List.flatMap_cons, List.append_assoc]
    exact List.Perm.refl _

mutual
theorem dfsNode_triples (g : String → List String) (W : List String) :
    ∀ (t : FTNode) (pfx : String) (models joins : List String) (acc : Accum),
      (∀ n ∈ allNamesN t, (pfx ++ n) ∈ W) →
      (accumTriples (dfsNode (wireRequest W g) t pfx models joins acc)).Perm
        (accumTriples acc ++ encNode g t pfx)
  | .mk mn fs ch, pfx, models, joins, acc, hmem => by
    have hfs : ∀ f ∈ fs, (pfx ++ "fo_" ++ f.name) ∈ W ∧ (pfx ++ "fv_" ++ f.name) ∈ W := by
      intro f hf
      constructor
      · have h1 : ("fo_" ++ f.name) ∈ allNamesN (.mk mn fs ch) := by
          simp only [allNamesN, List.mem_append, List.mem_flatMap]
          exact Or.inl ⟨f, hf, by simp⟩
        have := hmem _ h1
        rwa [← String.append_assoc] at this
      · have h1 : ("fv_" ++ f.name) ∈ allNamesN (.mk mn fs ch) := by
          simp only [allNamesN, List.mem_append, List.mem_flatMap]
          exact Or.inl ⟨f, hf, by simp⟩
        have := hmem _ h1
        rwa [← String.append_assoc] at this
    have hch : ∀ n ∈ allNamesC ch, (pfx ++ n) ∈ W := by
      intro n hn
      exact hmem n (by simp [allNamesN, hn])
    show (accumTriples (dfsChildren (wireRequest W g) ch pfx models joins
        (dfsFields (wireRequest W g) fs pfx models joins acc))).Perm _
    refine (dfsChildren_triples g W ch pfx models joins _ hch).trans ?_
    refine (List.Perm.append_right _
      (dfsFields_triples g W models joins fs pfx acc hfs)).trans ?_
    simp only [encNode, List.append_assoc]
    exact List.Perm.refl _
theorem dfsChildren_triples (g : String → List String) (W : List String) :
    ∀ (ch : FTChildren) (pfx : String) (models joins : List String) (acc : Accum),
      (∀ n ∈ allNamesC ch, (pfx ++ n) ∈ W) →
      (accumTriples (dfsChildren (wireRequest W g) ch pfx models joins acc)).Perm
        (accumTriples acc ++ encChildren g ch pfx)
  | .nil, pfx, models, joins, acc, _ => by simp [dfsChildren, encChildren]
  | .cons p c rest, pfx, models, joins, acc, hmem => by
    have hc : ∀ n ∈ allNamesN c, ((pfx ++ "fr_" ++ p ++ "-") ++ n) ∈ W := by
      intro n hn
      have h1 : ("fr_" ++ p ++ "-" ++ n) ∈ allNamesC (.cons p c rest) := by
        simp only [allNamesC, List.mem_append, List.mem_map]
        exact Or.inl ⟨n, hn, rfl⟩
      have := hmem _ h1
      rw [show (pfx ++ "fr_" ++ p ++ "-") ++ n = pfx ++ ("fr_" ++ p ++ "-" ++ n) by
        simp [String.append_assoc]]
      exact this
    have hrest : ∀ n ∈ allNamesC rest, (pfx ++ n) ∈ W := by
      intro n hn
      exact hmem n (by simp [allNamesC, hn])
    show (accumTriples (dfsChildren (wireRequest W g) rest pfx models joins
        (dfsNode (wireRequest W g) c (pfx ++ "fr_" ++ p ++ "-")
          (models ++ [ftModelName c]) (joins ++ [p]) acc))).Perm _
    refine (dfsChildren_triples g W rest pfx models joins _ hrest).trans ?_
    refine (List.Perm.append_right _
      (dfsNode_triples g W c (pfx ++ "fr_" ++ p ++ "-") _ _ acc hc)).trans ?_
    simp only [encChildren, List.append_assoc]
    exact List.Perm.refl _
end

/-- C1: round-trip fidelity. For EVERY field tree and every assignment `g` of
submitted value lists to wire parameter names, flattening the form
descriptors of `get_field_dict` into wire names, submitting `g` on those
names, and re-parsing with `parse_query_filters` reproduces exactly (up to
dict-grouping order) the encoded (field, operatorIndex, value) triples. -/
theorem c1_round_trip (t : FTNode) (g : String → List String) :
    (accumTriples (parseQueryFilters ⟨ftModelName t, t, loadQF [t]⟩
        (wireRequest (flattenFDict (getFieldDict (loadQF [t]) t)) g))).Perm
      (encNode g t "") := by
  have hflat : flattenFDict (getFieldDict (loadQF [t]) t) = allNamesN t :=
    flatten_getFieldDict (loadQF [t]) t
  have hmem : ∀ n ∈ allNamesN t, ("" ++ n) ∈ flattenFDict (getFieldDict (loadQF [t]) t) := by
    intro n hn
    rw [hflat]
    have : ("" : String) ++ n = n := by
      cases n
      rfl
    rwa [this]
  have := dfsNode_triples g (flattenFDict (getFieldDict (loadQF [t]) t)) t "" [] [] [] hmem
  simpa [parseQueryFilters, accumTriples] using this
